import Mathlib

/-!
Verification of the FFT bridge `Java_com_todoacorde_todoacorde_FFT_performFFT`
(src/app/src/main/cpp/fft_processing.cpp) of the TodoAcorde repository.

The bridge marshals a real-valued float buffer `signal` across the JNI
boundary, runs the external `kiss_fft` library on it (forward transform,
`kiss_fft_alloc(n, 0, …)`), and copies the resulting real and imaginary
components into the caller's `real` and `imag` buffers.

Samples are modelled as real numbers (`ℝ`), the transform over `ℂ`.  The
`kiss_fft` routine itself is an external dependency whose implementation is
not part of this repository; it is modelled from the spec as the
un-normalized forward DFT.  The three Java arrays are modelled as lists and
the body of the bridge as a function on that state; an out-of-bounds store
(the C code performs no bounds check) is undefined behaviour, modelled by
the `Option` monad returning `none`.
-/

open scoped BigOperators

noncomputable section

/-- Modelled from the spec: the `kiss_fft` forward transform (declared in
`kiss_fft.h`; its implementation is an external library, absent from this
repository).  Per the spec the forward transform is the un-normalized DFT
`X[k] = Σ x[n]·exp(-2πi·kn/N)` over the `N = input.length` samples. -/
def kissFFT (input : List ℂ) (k : ℕ) : ℂ :=
  ∑ n ∈ Finset.range input.length,
    input.getD n 0 * Complex.exp (-(2 * Real.pi * Complex.I * k * n) / input.length)

/-- The state of the three Java float arrays handed to `performFFT`. -/
structure JNIState where
  signal : List ℝ
  real : List ℝ
  imag : List ℝ

/-- The copy-out loop `for (i = 0; i < n; i++) buf[i] = vals[i];`: writes the
values `vs` into `buf` at consecutive indices starting at `i`. -/
def writeFrom (buf : List ℝ) (i : ℕ) : List ℝ → List ℝ
  | [] => buf
  | v :: vs => writeFrom (buf.set i v) (i + 1) vs

/-- Shallow embedding of `Java_com_todoacorde_todoacorde_FFT_performFFT`:
`n` is the length of `signal`; the input buffer `in` holds the samples with
zero imaginary parts (`in[i].r = signalArray[i]; in[i].i = 0.0;`); `kiss_fft`
fills `out`; the final loop stores `out[i].r` into `real[i]` and `out[i].i`
into `imag[i]` for `0 ≤ i < n`.  The C code never checks the lengths of
`real` and `imag`; when either is shorter than `n`, the store
`realArray[i] = …` runs past the end of the Java array — undefined
behaviour, modelled as `none`. -/
def performFFT (s : JNIState) : Option JNIState :=
  let n := s.signal.length
  if s.real.length < n ∨ s.imag.length < n then none
  else
    let inBuf : List ℂ := s.signal.map fun v => { re := v, im := 0 }
    let out : List ℂ := (List.range n).map fun k => kissFFT inBuf k
    some { signal := s.signal
           real := writeFrom s.real 0 (out.map Complex.re)
           imag := writeFrom s.imag 0 (out.map Complex.im) }

end

/-- `writeFrom` with enough room replaces the slice `[i, i + vs.length)` of
the buffer by `vs` and leaves everything else unchanged. -/
theorem writeFrom_eq (vs : List ℝ) : ∀ (buf : List ℝ) (i : ℕ),
    i + vs.length ≤ buf.length →
    writeFrom buf i vs = buf.take i ++ vs ++ buf.drop (i + vs.length) := by
  induction vs with
  | nil =>
    intro buf i _
    simp [writeFrom, List.take_append_drop]
  | cons v vs ih =>
    intro buf i h
    have hi : i < buf.length := by
      have := h
      simp only [List.length_cons] at this
      omega
    have hlen : i + 1 + vs.length ≤ (buf.set i v).length := by
      simp only [List.length_set]
      simp only [List.length_cons] at h
      omega
    have hrec := ih (buf.set i v) (i + 1) hlen
    rw [writeFrom, hrec]
    have hset : buf.set i v = buf.take i ++ v :: buf.drop (i + 1) :=
      List.set_eq_take_cons_drop v hi
    have htake : (buf.set i v).take (i + 1) = buf.take i ++ [v] := by
      have hlt : i + 1 = (buf.take i).length + 1 := by
        rw [List.length_take_of_le (Nat.le_of_lt hi)]
      rw [hset, hlt, List.take_append]
      simp
    have hdrop : (buf.set i v).drop (i + 1 + vs.length) = buf.drop (i + 1 + vs.length) :=
      List.drop_set_of_lt v buf (by omega)
    rw [htake, hdrop]
    have harith : i + 1 + vs.length = i + (v :: vs).length := by
      simp only [List.length_cons]
      omega
    rw [harith]
    simp [List.append_assoc]

/-- The per-sample marshalling `in[i].r = signalArray[i]; in[i].i = 0.0;`
builds exactly the real-to-complex coercion. -/
theorem mk_zero_im_eq_ofReal (v : ℝ) : ({ re := v, im := 0 } : ℂ) = (v : ℂ) := rfl

/-- `kissFFT` on the marshalled real input, written directly over the real
samples. -/
theorem kissFFT_ofReal (x : List ℝ) (k : ℕ) :
    kissFFT (x.map fun v => { re := v, im := 0 }) k =
      ∑ n ∈ Finset.range x.length,
        (x.getD n 0 : ℂ) *
          Complex.exp (-(2 * Real.pi * Complex.I * k * n) / x.length) := by
  unfold kissFFT
  rw [List.length_map]
  refine Finset.sum_congr rfl fun n hn => ?_
  have hn' : n < x.length := Finset.mem_range.mp hn
  congr 1
  rw [List.getD_eq_getElem?_getD, List.getD_eq_getElem?_getD, List.getElem?_map,
    List.getElem?_eq_getElem hn']
  simp [mk_zero_im_eq_ofReal]

/-- On success `performFFT` keeps `signal`, and replaces the first `n`
entries of `real` and `imag` by the real and imaginary parts of the
transform, keeping the rest of those buffers. -/
theorem performFFT_some (s : JNIState)
    (hr : s.signal.length ≤ s.real.length) (hi : s.signal.length ≤ s.imag.length) :
    performFFT s = some
      { signal := s.signal
        real := ((List.range s.signal.length).map fun k =>
            (kissFFT (s.signal.map fun v => { re := v, im := 0 }) k).re)
            ++ s.real.drop s.signal.length
        imag := ((List.range s.signal.length).map fun k =>
            (kissFFT (s.signal.map fun v => { re := v, im := 0 }) k).im)
            ++ s.imag.drop s.signal.length } := by
  unfold performFFT
  rw [if_neg (by push_neg; exact ⟨hr, hi⟩)]
  have hre := writeFrom_eq
    (((List.range s.signal.length).map fun k =>
        kissFFT (s.signal.map fun v => { re := v, im := 0 }) k).map Complex.re)
    s.real 0 (by simpa using hr)
  have him := writeFrom_eq
    (((List.range s.signal.length).map fun k =>
        kissFFT (s.signal.map fun v => { re := v, im := 0 }) k).map Complex.im)
    s.imag 0 (by simpa using hi)
  simp only [List.map_map] at hre him
  simp only [hre, him, List.map_map, List.length_map, List.length_range,
    List.take_zero, List.nil_append, Nat.zero_add]
  rfl

/-- Bins `0 ≤ k < n` of the output buffers hold the components of the
transform. -/
theorem performFFT_out_getD (s : JNIState)
    (hr : s.signal.length ≤ s.real.length) (hi : s.signal.length ≤ s.imag.length)
    (t : JNIState) (ht : performFFT s = some t) (k : ℕ) (hk : k < s.signal.length) :
    t.real.getD k 0 = (kissFFT (s.signal.map fun v => { re := v, im := 0 }) k).re ∧
    t.imag.getD k 0 = (kissFFT (s.signal.map fun v => { re := v, im := 0 }) k).im := by
  rw [performFFT_some s hr hi, Option.some_inj] at ht
  subst ht
  constructor <;>
  · rw [List.getD_eq_getElem?_getD, List.getElem?_append_left (by simpa using hk),
      List.getElem?_map]
    simp [List.getElem?_range, hk]

/-- The one-point transform is the identity: the single sum term carries the
twiddle `exp 0 = 1`. -/
theorem kissFFT_singleton (z : ℂ) (k : ℕ) : kissFFT [z] k = z := by
  unfold kissFFT
  simp

/-- Running the bridge on a single-sample signal copies the sample to
`real[0]` and stores `0` in `imag[0]`. -/
theorem performFFT_single (v r i : ℝ) :
    performFFT (JNIState.mk [v] [r] [i]) = some (JNIState.mk [v] [v] [0]) := by
  rw [performFFT_some (JNIState.mk [v] [r] [i]) (by simp) (by simp)]
  simp [kissFFT_singleton]

/-- Claim C1: for every input signal of length `N ≥ 1`, `performFFT` produces
the un-normalized forward DFT: for every bin `k` with `0 ≤ k < N`,
`real[k] + i·imag[k] = Σ_{n<N} signal[n]·exp(-2πi·k·n/N)`. -/
theorem C1_performFFT_is_unnormalized_dft (s t : JNIState) (k : ℕ)
    (hN : 1 ≤ s.signal.length)
    (hr : s.signal.length ≤ s.real.length) (hi : s.signal.length ≤ s.imag.length)
    (hk : k < s.signal.length)
    (ht : performFFT s = some t) :
    (t.real.getD k 0 : ℂ) + Complex.I * (t.imag.getD k 0 : ℂ) =
      ∑ n ∈ Finset.range s.signal.length,
        (s.signal.getD n 0 : ℂ) *
          Complex.exp (-(2 * Real.pi * Complex.I * k * n) / s.signal.length) := by
  obtain ⟨hre, him⟩ := performFFT_out_getD s hr hi t ht k hk
  rw [hre, him, ← kissFFT_ofReal, mul_comm]
  exact Complex.re_add_im _

/-- Witness for C1 at the concrete call `performFFT ⟨[1],[0],[0]⟩`, bin 0. -/
theorem C1_performFFT_is_unnormalized_dft_witness :
    performFFT (JNIState.mk [1] [0] [0]) = some (JNIState.mk [1] [1] [0]) ∧
    (((JNIState.mk [(1:ℝ)] [1] [0]).real.getD 0 0 : ℝ) : ℂ) +
        Complex.I * (((JNIState.mk [(1:ℝ)] [1] [0]).imag.getD 0 0 : ℝ) : ℂ) =
      ∑ n ∈ Finset.range (JNIState.mk [(1:ℝ)] [0] [0]).signal.length,
        ((JNIState.mk [(1:ℝ)] [0] [0]).signal.getD n 0 : ℂ) *
          Complex.exp (-(2 * Real.pi * Complex.I * ((0:ℕ):ℂ) * n) /
            (JNIState.mk [(1:ℝ)] [0] [0]).signal.length) :=
  ⟨performFFT_single 1 0 0,
    C1_performFFT_is_unnormalized_dft (JNIState.mk [1] [0] [0]) (JNIState.mk [1] [1] [0]) 0
      (by simp) (by simp) (by simp) (by simp) (performFFT_single 1 0 0)⟩

/-- A successful run implies both output buffers were at least as long as
the signal (otherwise the copy-out loop would have run out of bounds). -/
theorem performFFT_some_le (s t : JNIState) (ht : performFFT s = some t) :
    s.signal.length ≤ s.real.length ∧ s.signal.length ≤ s.imag.length := by
  by_cases h : s.real.length < s.signal.length ∨ s.imag.length < s.signal.length
  · simp only [performFFT] at ht
    rw [if_pos h] at ht
    cases ht
  · push_neg at h
    exact ⟨h.1, h.2⟩

/-- The first `n` entries of the output buffers are exactly the transform
components, and the signal buffer is returned as it was. -/
theorem performFFT_take (s t : JNIState) (ht : performFFT s = some t) :
    t.real.take s.signal.length = ((List.range s.signal.length).map fun k =>
      (kissFFT (s.signal.map fun v => { re := v, im := 0 }) k).re) ∧
    t.imag.take s.signal.length = ((List.range s.signal.length).map fun k =>
      (kissFFT (s.signal.map fun v => { re := v, im := 0 }) k).im) ∧
    t.signal = s.signal := by
  obtain ⟨hr, hi⟩ := performFFT_some_le s t ht
  rw [performFFT_some s hr hi, Option.some_inj] at ht
  subst ht
  refine ⟨?_, ?_, rfl⟩ <;>
  · rw [List.take_left']
    simp

/-- Running the bridge on an empty signal does no per-element work: both
loops have zero iterations and the state comes back unchanged. -/
theorem performFFT_empty (r i : List ℝ) :
    performFFT (JNIState.mk [] r i) = some (JNIState.mk [] r i) := by
  simp [performFFT, writeFrom]

/-- Claim C8: for `N = 1` the transform is the identity: a single-sample
signal `[s]` yields `real = [s]` and `imag = [0]`. -/
theorem C8_single_sample_identity (s r i : ℝ) :
    performFFT (JNIState.mk [s] [r] [i]) = some (JNIState.mk [s] [s] [0]) :=
  performFFT_single s r i

/-- Counterexample to claim C3: invoked on an empty signal (`N = 0`) the
bridge does not fail; it proceeds and returns normally. -/
theorem C3_counterexample :
    ¬ performFFT (JNIState.mk ([] : List ℝ) [5] [7]) = none := by
  rw [performFFT_empty]
  simp

/-- Claim C3 (amended): `performFFT` performs no `InvalidLength` validation;
invoked with an empty signal it proceeds, performs no element writes, and
returns the buffers unchanged. -/
theorem C3_empty_signal_proceeds (r i : List ℝ) :
    performFFT (JNIState.mk [] r i) = some (JNIState.mk [] r i) :=
  performFFT_empty r i

/-- Claim C5: a successful call never mutates the caller's input signal
buffer. -/
theorem C5_signal_not_mutated (s t : JNIState) (ht : performFFT s = some t) :
    t.signal = s.signal :=
  (performFFT_take s t ht).2.2

/-- Witness for C5 at the concrete call `performFFT ⟨[1],[0],[0]⟩`. -/
theorem C5_signal_not_mutated_witness :
    performFFT (JNIState.mk [1] [0] [0]) = some (JNIState.mk [1] [1] [0]) ∧
    (JNIState.mk [(1:ℝ)] [1] [0]).signal = (JNIState.mk [(1:ℝ)] [0] [0]).signal :=
  ⟨performFFT_single 1 0 0,
    C5_signal_not_mutated (JNIState.mk [1] [0] [0]) (JNIState.mk [1] [1] [0])
      (performFFT_single 1 0 0)⟩

/-- A single-sample signal with two-element output buffers: the bridge
writes bin 0 and leaves the extra slot untouched. -/
theorem performFFT_pad (v : ℝ) :
    performFFT (JNIState.mk [v] [0, 0] [0, 0]) = some (JNIState.mk [v] [v, 0] [0, 0]) := by
  rw [performFFT_some (JNIState.mk [v] [0, 0] [0, 0]) (by simp) (by simp)]
  simp [kissFFT_singleton]

/-- Counterexample to claim C2: with output buffers of length 2 for a
signal of length 1 (a length mismatch) the bridge neither fails nor leaves
the buffers untouched: it proceeds and writes bin 0. -/
theorem C2_counterexample :
    performFFT (JNIState.mk [1] [0, 0] [0, 0]) ≠ none ∧
    performFFT (JNIState.mk [1] [0, 0] [0, 0]) ≠
      some (JNIState.mk [1] [0, 0] [0, 0]) := by
  rw [performFFT_pad 1]
  constructor
  · simp
  · simp [JNIState.mk.injEq]

/-- Claim C2 (amended): `performFFT` performs no length validation on the
output buffers.  When both are at least as long as the signal — including
strictly longer, a mismatch — the call proceeds, overwrites bins
`0 … n-1`, and leaves the tails of the buffers unchanged; when either is
shorter the copy-out store runs out of bounds (undefined behaviour,
modelled as `none`), not a `LengthMismatch` failure. -/
theorem C2_no_length_validation (s : JNIState) :
    (s.signal.length ≤ s.real.length → s.signal.length ≤ s.imag.length →
      ∃ t, performFFT s = some t ∧
        t.real.drop s.signal.length = s.real.drop s.signal.length ∧
        t.imag.drop s.signal.length = s.imag.drop s.signal.length) ∧
    ((s.real.length < s.signal.length ∨ s.imag.length < s.signal.length) →
      performFFT s = none) := by
  constructor
  · intro hr hi
    refine ⟨_, performFFT_some s hr hi, ?_, ?_⟩ <;>
    · exact List.drop_left' (by simp)
  · intro h
    simp only [performFFT]
    rw [if_pos h]

/-- Witness for C2 (amended) at two concrete calls: longer buffers
(proceeds, tail kept) and shorter buffers (out of bounds). -/
theorem C2_no_length_validation_witness :
    (∃ t, performFFT (JNIState.mk [1] [0, 0] [0, 0]) = some t ∧
      t.real.drop (JNIState.mk [(1:ℝ)] [0, 0] [0, 0]).signal.length =
        (JNIState.mk [(1:ℝ)] [0, 0] [0, 0]).real.drop
          (JNIState.mk [(1:ℝ)] [0, 0] [0, 0]).signal.length ∧
      t.imag.drop (JNIState.mk [(1:ℝ)] [0, 0] [0, 0]).signal.length =
        (JNIState.mk [(1:ℝ)] [0, 0] [0, 0]).imag.drop
          (JNIState.mk [(1:ℝ)] [0, 0] [0, 0]).signal.length) ∧
    performFFT (JNIState.mk [1] [] []) = none :=
  ⟨(C2_no_length_validation (JNIState.mk [1] [0, 0] [0, 0])).1 (by simp) (by simp),
    (C2_no_length_validation (JNIState.mk [1] [] [])).2 (by simp)⟩

/-- Claim C9: the bridge is a deterministic pure function of the input
signal: two successful calls on element-wise equal signals return equal
signal buffers and element-wise equal transform bins `0 … n-1`, regardless
of the initial contents of the output buffers. -/
theorem C9_pure_function (s₁ s₂ t₁ t₂ : JNIState)
    (hsig : s₁.signal = s₂.signal)
    (h₁ : performFFT s₁ = some t₁) (h₂ : performFFT s₂ = some t₂) :
    t₁.signal = t₂.signal ∧
    t₁.real.take s₁.signal.length = t₂.real.take s₂.signal.length ∧
    t₁.imag.take s₁.signal.length = t₂.imag.take s₂.signal.length := by
  obtain ⟨hr₁, hi₁, hs₁⟩ := performFFT_take s₁ t₁ h₁
  obtain ⟨hr₂, hi₂, hs₂⟩ := performFFT_take s₂ t₂ h₂
  refine ⟨by rw [hs₁, hs₂, hsig], ?_, ?_⟩
  · rw [hr₁, hr₂, hsig]
  · rw [hi₁, hi₂, hsig]

/-- Witness for C9: the same signal with two different initial output
buffers gives the same transform bins. -/
theorem C9_pure_function_witness :
    (JNIState.mk [(1:ℝ)] [1] [0]).signal = (JNIState.mk [(1:ℝ)] [1] [0]).signal ∧
    (JNIState.mk [(1:ℝ)] [1] [0]).real.take
        (JNIState.mk [(1:ℝ)] [0] [0]).signal.length =
      (JNIState.mk [(1:ℝ)] [1] [0]).real.take
        (JNIState.mk [(1:ℝ)] [5] [7]).signal.length ∧
    (JNIState.mk [(1:ℝ)] [1] [0]).imag.take
        (JNIState.mk [(1:ℝ)] [0] [0]).signal.length =
      (JNIState.mk [(1:ℝ)] [1] [0]).imag.take
        (JNIState.mk [(1:ℝ)] [5] [7]).signal.length :=
  C9_pure_function (JNIState.mk [1] [0] [0]) (JNIState.mk [1] [5] [7])
    (JNIState.mk [1] [1] [0]) (JNIState.mk [1] [1] [0]) rfl
    (performFFT_single 1 0 0) (performFFT_single 1 5 7)

/-- The transform of the length-8 unit impulse is identically `1`: only the
`n = 0` term of each bin's sum is non-zero, and its twiddle is `exp 0`. -/
theorem kissFFT_impulse8 (k : ℕ) :
    kissFFT (([1, 0, 0, 0, 0, 0, 0, 0] : List ℝ).map fun v => { re := v, im := 0 }) k = 1 := by
  rw [kissFFT_ofReal]
  simp [Finset.sum_range_succ, List.getD]

/-- The impulse lemma restated on the already-marshalled complex buffer. -/
theorem kissFFT_impulse8mk (k : ℕ) :
    kissFFT [({ re := 1, im := 0 } : ℂ), { re := 0, im := 0 }, { re := 0, im := 0 },
      { re := 0, im := 0 }, { re := 0, im := 0 }, { re := 0, im := 0 },
      { re := 0, im := 0 }, { re := 0, im := 0 }] k = 1 :=
  kissFFT_impulse8 k

/-- Claim C6: on the length-8 unit impulse `[1,0,0,0,0,0,0,0]` (with
zeroed length-8 output buffers) the bridge returns
`real = [1,1,1,1,1,1,1,1]` and `imag = [0,0,0,0,0,0,0,0]`. -/
theorem C6_impulse8 :
    performFFT (JNIState.mk [1, 0, 0, 0, 0, 0, 0, 0]
        [0, 0, 0, 0, 0, 0, 0, 0] [0, 0, 0, 0, 0, 0, 0, 0]) =
      some (JNIState.mk [1, 0, 0, 0, 0, 0, 0, 0]
        [1, 1, 1, 1, 1, 1, 1, 1] [0, 0, 0, 0, 0, 0, 0, 0]) := by
  rw [performFFT_some (JNIState.mk [1, 0, 0, 0, 0, 0, 0, 0]
    [0, 0, 0, 0, 0, 0, 0, 0] [0, 0, 0, 0, 0, 0, 0, 0]) (by simp) (by simp)]
  simp [kissFFT_impulse8mk, List.range_succ]

/-- Claim C7: the transform is linear: for scalars `a`, `b` and same-length
real signals `x`, `y`, every bin of the transform of `a·x + b·y` is the
corresponding combination of the bins for `x` and for `y`. -/
theorem C7_linearity (a b : ℝ) (x y : List ℝ) (hlen : x.length = y.length) (k : ℕ) :
    kissFFT ((List.zipWith (fun u v => a * u + b * v) x y).map
        fun v => { re := v, im := 0 }) k =
      (a : ℂ) * kissFFT (x.map fun v => { re := v, im := 0 }) k +
      (b : ℂ) * kissFFT (y.map fun v => { re := v, im := 0 }) k := by
  have hzlen : (List.zipWith (fun u v => a * u + b * v) x y).length = x.length := by
    rw [List.length_zipWith, hlen, min_self]
  rw [kissFFT_ofReal, kissFFT_ofReal, kissFFT_ofReal, hzlen, ← hlen,
    Finset.mul_sum, Finset.mul_sum, ← Finset.sum_add_distrib]
  refine Finset.sum_congr rfl fun n hn => ?_
  have hx : n < x.length := Finset.mem_range.mp hn
  have hy : n < y.length := hlen ▸ hx
  have hz : (List.zipWith (fun u v => a * u + b * v) x y).getD n 0 =
      a * x.getD n 0 + b * y.getD n 0 := by
    rw [List.getD_eq_getElem?_getD, List.getD_eq_getElem?_getD,
      List.getD_eq_getElem?_getD, List.getElem?_zipWith',
      List.getElem?_eq_getElem hx, List.getElem?_eq_getElem hy]
    simp
  rw [hz]
  push_cast
  ring

/-- Witness for C7 at `a = 3`, `b = 5`, `x = [1]`, `y = [2]`, bin 0. -/
theorem C7_linearity_witness :
    kissFFT ((List.zipWith (fun u v => 3 * u + 5 * v) [(1:ℝ)] [(2:ℝ)]).map
        fun v => { re := v, im := 0 }) 0 =
      ((3:ℝ) : ℂ) * kissFFT ([(1:ℝ)].map fun v => { re := v, im := 0 }) 0 +
      ((5:ℝ) : ℂ) * kissFFT ([(2:ℝ)].map fun v => { re := v, im := 0 }) 0 :=
  C7_linearity 3 5 [1] [2] (by simp) 0

/-- Reflecting the bin index conjugates the twiddle factor:
`exp(-2πi·(N-k)·n/N) = conj (exp(-2πi·k·n/N))`. -/
theorem exp_twiddle_conj (N k n : ℕ) (hk : k ≤ N) (hN : 0 < N) :
    Complex.exp (-(2 * Real.pi * Complex.I * ((N - k : ℕ) : ℂ) * n) / N) =
      (starRingEnd ℂ) (Complex.exp (-(2 * Real.pi * Complex.I * k * n) / N)) := by
  rw [← Complex.exp_conj]
  have hNne : (N : ℂ) ≠ 0 := Nat.cast_ne_zero.mpr (by omega)
  have hcast : ((N - k : ℕ) : ℂ) = (N : ℂ) - k := by
    push_cast [hk]
    ring
  have hconj : (starRingEnd ℂ) (-(2 * Real.pi * Complex.I * k * n) / N) =
      (2 * Real.pi * Complex.I * k * n) / N := by
    simp [map_div₀, Complex.conj_I, map_ofNat]
  rw [hcast, hconj]
  have key : -(2 * Real.pi * Complex.I * ((N : ℂ) - k) * n) / N =
      (2 * Real.pi * Complex.I * k * n) / N + ((-(n : ℤ) : ℤ) : ℂ) * (2 * Real.pi * Complex.I) := by
    push_cast
    field_simp
    ring
  rw [key, Complex.exp_add, Complex.exp_int_mul_two_pi_mul_I, mul_one]

/-- On a real-valued input, reflecting the bin conjugates the transform. -/
theorem kissFFT_real_conj (x : List ℝ) (k : ℕ) (hk : k ≤ x.length) (hN : 0 < x.length) :
    kissFFT (x.map fun v => { re := v, im := 0 }) (x.length - k) =
      (starRingEnd ℂ) (kissFFT (x.map fun v => { re := v, im := 0 }) k) := by
  rw [kissFFT_ofReal, kissFFT_ofReal, map_sum]
  refine Finset.sum_congr rfl fun n hn => ?_
  rw [map_mul, Complex.conj_ofReal, exp_twiddle_conj x.length k n hk hN]

/-- Bin 0 of a real-valued input has zero imaginary part. -/
theorem kissFFT_zero_bin_im (x : List ℝ) :
    (kissFFT (x.map fun v => { re := v, im := 0 }) 0).im = 0 := by
  rw [kissFFT_ofReal, Complex.im_sum]
  refine Finset.sum_eq_zero fun n hn => ?_
  simp

/-- Claim C10: since the bridge zeroes every imaginary input part before
transforming, every successful output is conjugate-symmetric: for
`1 ≤ k ≤ N-1`, `real[N-k] = real[k]` and `imag[N-k] = -imag[k]`, and
`imag[0] = 0`. -/
theorem C10_conjugate_symmetry (s t : JNIState) (k : ℕ)
    (ht : performFFT s = some t)
    (hk1 : 1 ≤ k) (hk2 : k ≤ s.signal.length - 1) :
    t.real.getD (s.signal.length - k) 0 = t.real.getD k 0 ∧
    t.imag.getD (s.signal.length - k) 0 = - t.imag.getD k 0 ∧
    t.imag.getD 0 0 = 0 := by
  obtain ⟨hr, hi⟩ := performFFT_some_le s t ht
  have hN : 0 < s.signal.length := by omega
  obtain ⟨hre1, him1⟩ := performFFT_out_getD s hr hi t ht (s.signal.length - k) (by omega)
  obtain ⟨hre2, him2⟩ := performFFT_out_getD s hr hi t ht k (by omega)
  obtain ⟨hre0, him0⟩ := performFFT_out_getD s hr hi t ht 0 (by omega)
  have hconj := kissFFT_real_conj s.signal k (by omega) hN
  refine ⟨?_, ?_, ?_⟩
  · rw [hre1, hre2, hconj, Complex.conj_re]
  · rw [him1, him2, hconj, Complex.conj_im]
  · rw [him0]
    exact kissFFT_zero_bin_im s.signal

/-- The two-point transform of `[1, 2]`: bin 0 is `3`, bin 1 is
`1 + 2·exp(-πi) = -1`. -/
theorem kissFFT_pair_bin0 :
    kissFFT [({ re := 1, im := 0 } : ℂ), { re := 2, im := 0 }] 0 = 3 := by
  unfold kissFFT
  simp [Finset.sum_range_succ, mk_zero_im_eq_ofReal]
  norm_num

theorem kissFFT_pair_bin1 :
    kissFFT [({ re := 1, im := 0 } : ℂ), { re := 2, im := 0 }] 1 = -1 := by
  unfold kissFFT
  simp [Finset.sum_range_succ, mk_zero_im_eq_ofReal]
  have harg : -(2 * (Real.pi : ℂ) * Complex.I) / 2 = -(Real.pi * Complex.I) := by
    ring
  rw [harg, Complex.exp_neg, Complex.exp_pi_mul_I]
  norm_num

/-- Evaluated run of the bridge on `[1, 2]` with zeroed output buffers. -/
theorem performFFT_pair :
    performFFT (JNIState.mk [1, 2] [0, 0] [0, 0]) =
      some (JNIState.mk [1, 2] [3, -1] [0, 0]) := by
  rw [performFFT_some (JNIState.mk [1, 2] [0, 0] [0, 0]) (by simp) (by simp)]
  simp [List.range_succ, kissFFT_pair_bin0, kissFFT_pair_bin1]

/-- Witness for C10 at the concrete call `performFFT ⟨[1,2],[0,0],[0,0]⟩`
and `k = 1`. -/
theorem C10_conjugate_symmetry_witness :
    performFFT (JNIState.mk [1, 2] [0, 0] [0, 0]) =
      some (JNIState.mk [1, 2] [3, -1] [0, 0]) ∧
    ((JNIState.mk [(1:ℝ), 2] [3, -1] [0, 0]).real.getD
        ((JNIState.mk [(1:ℝ), 2] [0, 0] [0, 0]).signal.length - 1) 0 =
      (JNIState.mk [(1:ℝ), 2] [3, -1] [0, 0]).real.getD 1 0 ∧
    (JNIState.mk [(1:ℝ), 2] [3, -1] [0, 0]).imag.getD
        ((JNIState.mk [(1:ℝ), 2] [0, 0] [0, 0]).signal.length - 1) 0 =
      - (JNIState.mk [(1:ℝ), 2] [3, -1] [0, 0]).imag.getD 1 0 ∧
    (JNIState.mk [(1:ℝ), 2] [3, -1] [0, 0]).imag.getD 0 0 = 0) :=
  ⟨performFFT_pair,
    C10_conjugate_symmetry (JNIState.mk [1, 2] [0, 0] [0, 0])
      (JNIState.mk [1, 2] [3, -1] [0, 0]) 1 performFFT_pair
      (by simp) (by simp)⟩

/-- The full frequency-domain sequence the forward path produces: bin `k`
of the transform of the marshalled real signal, for `k = 0 … N-1`. -/
noncomputable def forwardList (x : List ℝ) : List ℂ :=
  (List.range x.length).map fun k => kissFFT (x.map fun v => { re := v, im := 0 }) k

/-- Modelled from the spec: the engine's inverse transform.  The shim only
ever requests the forward transform (`kiss_fft_alloc(n, 0, …)`); the spec's
Executor section specifies an inverse path with the opposite twiddle sign
`exp(+2πi·k/N)` and leaves the normalization constant to be applied
separately.  Un-normalized inverse DFT: `y[m] = Σ X[k]·exp(+2πi·km/N)`. -/
noncomputable def inverseDFT (X : List ℂ) (m : ℕ) : ℂ :=
  ∑ k ∈ Finset.range X.length,
    X.getD k 0 * Complex.exp ((2 * Real.pi * Complex.I * k * m) / X.length)

/-- Sum over one period of a non-trivial `N`-th root of unity rotation is
zero. -/
theorem sum_exp_rot_eq_zero (N : ℕ) (hN : 0 < N) (d : ℤ) (hd : d ≠ 0)
    (hdlt : d.natAbs < N) :
    ∑ k ∈ Finset.range N,
      Complex.exp ((2 * Real.pi * Complex.I * d * k) / N) = 0 := by
  have hNne : (N : ℂ) ≠ 0 := Nat.cast_ne_zero.mpr (by omega)
  have hterm : ∀ k : ℕ, Complex.exp ((2 * Real.pi * Complex.I * d * k) / N) =
      Complex.exp ((2 * Real.pi * Complex.I * d) / N) ^ k := by
    intro k
    rw [← Complex.exp_nat_mul]
    congr 1
    ring
  have hroot : Complex.exp ((2 * Real.pi * Complex.I * d) / N) ^ N = 1 := by
    rw [← Complex.exp_nat_mul]
    have harg : (N : ℂ) * ((2 * Real.pi * Complex.I * d) / N) =
        (d : ℂ) * (2 * Real.pi * Complex.I) := by
      field_simp
      ring
    rw [harg]
    exact Complex.exp_int_mul_two_pi_mul_I d
  have hpi : (2 * (Real.pi : ℂ) * Complex.I) ≠ 0 := by
    simp [Real.pi_ne_zero, Complex.I_ne_zero]
  have hne1 : Complex.exp ((2 * Real.pi * Complex.I * d) / N) ≠ 1 := by
    intro h
    rw [Complex.exp_eq_one_iff] at h
    obtain ⟨m, hm⟩ := h
    have hm2 : 2 * (Real.pi : ℂ) * Complex.I * d = (m : ℂ) * (2 * Real.pi * Complex.I) * N :=
      (div_eq_iff hNne).mp hm
    have hdm : (d : ℂ) = (m : ℂ) * N := by
      apply mul_left_cancel₀ hpi
      linear_combination hm2
    have hZ : d = m * N := by exact_mod_cast hdm
    have hm0 : m ≠ 0 := by
      rintro rfl
      simp at hZ
      exact hd hZ
    have h1 : d.natAbs = m.natAbs * N := by
      rw [hZ, Int.natAbs_mul]
      simp
    have h2 : 1 ≤ m.natAbs := Int.natAbs_pos.mpr hm0
    have h3 : N ≤ m.natAbs * N := Nat.le_mul_of_pos_left N h2
    omega
  calc ∑ k ∈ Finset.range N, Complex.exp ((2 * Real.pi * Complex.I * d * k) / N)
      = ∑ k ∈ Finset.range N, Complex.exp ((2 * Real.pi * Complex.I * d) / N) ^ k :=
        Finset.sum_congr rfl fun k _ => hterm k
    _ = (Complex.exp ((2 * Real.pi * Complex.I * d) / N) ^ N - 1) /
          (Complex.exp ((2 * Real.pi * Complex.I * d) / N) - 1) := geom_sum_eq hne1 N
    _ = 0 := by
        rw [hroot]
        simp

/-- Orthogonality of the rotation characters on `range N`. -/
theorem sum_exp_rot (N : ℕ) (hN : 0 < N) (m n : ℕ) (hm : m < N) (hn : n < N) :
    ∑ k ∈ Finset.range N,
      Complex.exp ((2 * Real.pi * Complex.I * (((m : ℤ) - (n : ℤ) : ℤ) : ℂ) * k) / N) =
      if m = n then (N : ℂ) else 0 := by
  by_cases h : m = n
  · subst h
    simp
  · rw [if_neg h]
    exact sum_exp_rot_eq_zero N hN ((m : ℤ) - n) (by omega) (by omega)

/-- Entry `k < N` of the forward output sequence, written over the real
samples. -/
theorem forwardList_getD (x : List ℝ) (k : ℕ) (hk : k < x.length) :
    (forwardList x).getD k 0 =
      ∑ n ∈ Finset.range x.length,
        (x.getD n 0 : ℂ) *
          Complex.exp (-(2 * Real.pi * Complex.I * k * n) / x.length) := by
  unfold forwardList
  rw [List.getD_eq_getElem?_getD, List.getElem?_map]
  simp [List.getElem?_range, hk, kissFFT_ofReal]

/-- Claim C4: for all `N ≥ 1` and all real inputs `x` of length `N`, the
inverse transform of the forward transform recovers `x` once the
normalization constant `1/N` is applied. -/
theorem C4_round_trip (x : List ℝ) (m : ℕ) (hN : 1 ≤ x.length) (hm : m < x.length) :
    (1 / (x.length : ℂ)) * inverseDFT (forwardList x) m = (x.getD m 0 : ℂ) := by
  have hNne : (x.length : ℂ) ≠ 0 := Nat.cast_ne_zero.mpr (by omega)
  have hlen : (forwardList x).length = x.length := by
    simp [forwardList]
  unfold inverseDFT
  rw [hlen]
  have hstep : ∑ k ∈ Finset.range x.length, (forwardList x).getD k 0 *
      Complex.exp ((2 * Real.pi * Complex.I * k * m) / x.length)
    = ∑ n ∈ Finset.range x.length, (x.getD n 0 : ℂ) *
        ∑ k ∈ Finset.range x.length,
          Complex.exp ((2 * Real.pi * Complex.I * (((m : ℤ) - (n : ℤ) : ℤ) : ℂ) * k) /
            x.length) := by
    rw [Finset.sum_congr rfl (fun k hk => by
      rw [forwardList_getD x k (Finset.mem_range.mp hk), Finset.sum_mul])]
    rw [Finset.sum_comm]
    refine Finset.sum_congr rfl fun n hn => ?_
    rw [Finset.mul_sum]
    refine Finset.sum_congr rfl fun k hk => ?_
    rw [mul_assoc, ← Complex.exp_add]
    congr 2
    push_cast
    field_simp
    ring
  rw [hstep]
  rw [Finset.sum_congr rfl (fun n hn => by
    rw [sum_exp_rot x.length (by omega) m n hm (Finset.mem_range.mp hn)])]
  have hsplit : ∀ n : ℕ, (x.getD n 0 : ℂ) * (if m = n then (x.length : ℂ) else 0) =
      if m = n then (x.getD n 0 : ℂ) * x.length else 0 := by
    intro n
    split <;> simp
  rw [Finset.sum_congr rfl fun n _ => hsplit n, Finset.sum_ite_eq,
    if_pos (Finset.mem_range.mpr hm)]
  field_simp

/-- Witness for C4 at `x = [1]`, `m = 0`. -/
theorem C4_round_trip_witness :
    1 ≤ [(1:ℝ)].length ∧ 0 < [(1:ℝ)].length ∧
    (1 / (([(1:ℝ)].length : ℕ) : ℂ)) * inverseDFT (forwardList [(1:ℝ)]) 0 =
      ([(1:ℝ)].getD 0 0 : ℂ) :=
  ⟨by simp, by simp, C4_round_trip [1] 0 (by simp) (by simp)⟩
